import Mathlib

/-
Verification of the caching module of the CONTRA repository
(src/utils/cache.py) against its natural-language specification.

The module provides:
  - LRUCache: a bounded in-memory cache over an ordered mapping,
  - memory_cache: a decorator caching function results in a module-level
    LRUCache instance,
  - _compute_hash: derivation of a cache key from call arguments via a
    canonical JSON serialization followed by SHA-256,
  - disk_cache: a decorator persisting results as pickle files whose
    modification time drives TTL expiry,
  - clear_cache: deletion of cache files on disk.

The embedding below models Python values appearing as cacheable arguments
and results by the inductive type PyVal, the canonical serialization of
json.dumps with sort_keys by the function dumps, SHA-256 by an executable
word-level implementation, and the stateful decorators by explicit state
passing (file system and call counters as data).  Wall-clock times are
modelled as natural numbers of seconds.
-/

/-! ### SHA-256 (hashlib.sha256, used by _compute_hash)

A direct executable model of SHA-256 over lists of byte values,
following FIPS 180-4: message padding, per-chunk message schedule and
the 64-round compression function on 32-bit words (naturals reduced
modulo 2^32). -/

def w32 (x : Nat) : Nat := x % 4294967296

def rotr (n x : Nat) : Nat := w32 ((x >>> n) ||| (x <<< (32 - n)))

def shaCh (x y z : Nat) : Nat := (x &&& y) ^^^ ((x ^^^ 4294967295) &&& z)

def shaMaj (x y z : Nat) : Nat := (x &&& y) ^^^ (x &&& z) ^^^ (y &&& z)

def bSig0 (x : Nat) : Nat := rotr 2 x ^^^ rotr 13 x ^^^ rotr 22 x

def bSig1 (x : Nat) : Nat := rotr 6 x ^^^ rotr 11 x ^^^ rotr 25 x

def sSig0 (x : Nat) : Nat := rotr 7 x ^^^ rotr 18 x ^^^ (x >>> 3)

def sSig1 (x : Nat) : Nat := rotr 17 x ^^^ rotr 19 x ^^^ (x >>> 10)

/-- The 64 SHA-256 round constants of FIPS 180-4, written in decimal
(the first is 428a2f98 in hex). -/
def shaK : List Nat :=
  [1116352408, 1899447441, 3049323471, 3921009573, 961987163, 1508970993,
   2453635748, 2870763221, 3624381080, 310598401, 607225278, 1426881987,
   1925078388, 2162078206, 2614888103, 3248222580, 3835390401, 4022224774,
   264347078, 604807628, 770255983, 1249150122, 1555081692, 1996064986,
   2554220882, 2821834349, 2952996808, 3210313671, 3336571891, 3584528711,
   113926993, 338241895, 666307205, 773529912, 1294757372, 1396182291,
   1695183700, 1986661051, 2177026350, 2456956037, 2730485921, 2820302411,
   3259730800, 3345764771, 3516065817, 3600352804, 4094571909, 275423344,
   430227734, 506948616, 659060556, 883997877, 958139571, 1322822218,
   1537002063, 1747873779, 1955562222, 2024104815, 2227730452, 2361852424,
   2428436474, 2756734187, 3204031479, 3329325298]

/-- The eight SHA-256 initial hash values of FIPS 180-4, in decimal
(the first is 6a09e667 in hex). -/
def shaH0 : List Nat :=
  [1779033703, 3144134277, 1013904242, 2773480762,
   1359893119, 2600822924, 528734635, 1541459225]

def beBytes : Nat → Nat → List Nat
  | 0, _ => []
  | k + 1, n => beBytes k (n / 256) ++ [n % 256]

def shaPad (msg : List Nat) : List Nat :=
  let len := msg.length
  let z := (119 - len % 64) % 64
  msg ++ [0x80] ++ List.replicate z 0 ++ beBytes 8 (len * 8)

def shaChunks (padded : List Nat) : List (List Nat) :=
  (List.range (padded.length / 64)).map (fun i => ((padded.drop (64 * i)).take 64))

def chunkWords (chunk : List Nat) : List Nat :=
  (List.range 16).map (fun i =>
    chunk.getD (4 * i) 0 * 16777216 + chunk.getD (4 * i + 1) 0 * 65536 +
    chunk.getD (4 * i + 2) 0 * 256 + chunk.getD (4 * i + 3) 0)

def extendWords (ws : List Nat) : List Nat :=
  (List.range 48).foldl
    (fun ws _ =>
      let n := ws.length
      ws ++ [w32 (ws.getD (n - 16) 0 + sSig0 (ws.getD (n - 15) 0) +
                  ws.getD (n - 7) 0 + sSig1 (ws.getD (n - 2) 0))])
    ws

def roundStep (st : List Nat) (kw : Nat × Nat) : List Nat :=
  match st with
  | [a, b, c, d, e, f, g, h] =>
    let t1 := w32 (h + bSig1 e + shaCh e f g + kw.1 + kw.2)
    let t2 := w32 (bSig0 a + shaMaj a b c)
    [w32 (t1 + t2), a, b, c, w32 (d + t1), e, f, g]
  | _ => st

def compressChunk (hs : List Nat) (chunk : List Nat) : List Nat :=
  let ws := extendWords (chunkWords chunk)
  let st := (shaK.zip ws).foldl roundStep hs
  List.zipWith (fun x y => w32 (x + y)) hs st

def sha256Words (msg : List Nat) : List Nat :=
  (shaChunks (shaPad msg)).foldl compressChunk shaH0

def hexChar (n : Nat) : Char :=
  if n < 10 then Char.ofNat (48 + n) else Char.ofNat (87 + n)

def wordHex (w : Nat) : List Char :=
  (List.range 8).map (fun i => hexChar ((w >>> (28 - 4 * i)) % 16))

/-- Hex digest of SHA-256 over a byte list, as returned by
hashlib.sha256(bytes).hexdigest(). -/
def sha256Hex (msg : List Nat) : String :=
  String.mk ((sha256Words msg).flatMap wordHex)

/-- UTF-8 encoding of one character (one Unicode code point). -/
def charUtf8 (c : Char) : List Nat :=
  let n := c.toNat
  if n < 128 then [n]
  else if n < 2048 then [192 + n / 64, 128 + n % 64]
  else if n < 65536 then [224 + n / 4096, 128 + (n / 64) % 64, 128 + n % 64]
  else [240 + n / 262144, 128 + (n / 4096) % 64, 128 + (n / 64) % 64, 128 + n % 64]

/-- Model of str.encode applied with the utf-8 codec. -/
def utf8Bytes (s : String) : List Nat := s.data.flatMap charUtf8

/-! ### Python values

PyVal models the fragment of Python values the cache layer handles as
call arguments and results: None, bool, int, str, sequences (list or
tuple, both serialized identically by json.dumps) and dicts, the latter
as association lists of key-value pairs in insertion order.  Python
float arguments are outside the modelled fragment; no claim under
verification involves them. -/

inductive PyVal where
  | pnone : PyVal
  | pbool (b : Bool) : PyVal
  | pint (n : Int) : PyVal
  | pstr (s : String) : PyVal
  | plist (xs : List PyVal) : PyVal
  | pdict (kvs : List (PyVal × PyVal)) : PyVal

mutual

def pyBeq : PyVal → PyVal → Bool
  | .pnone, .pnone => true
  | .pbool a, .pbool b => a == b
  | .pint a, .pint b => a == b
  | .pstr a, .pstr b => a == b
  | .plist xs, .plist ys => pyBeqList xs ys
  | .pdict xs, .pdict ys => pyBeqDict xs ys
  | _, _ => false

def pyBeqList : List PyVal → List PyVal → Bool
  | [], [] => true
  | x :: xs, y :: ys => pyBeq x y && pyBeqList xs ys
  | _, _ => false

def pyBeqDict : List (PyVal × PyVal) → List (PyVal × PyVal) → Bool
  | [], [] => true
  | (k, v) :: ps, (k2, v2) :: qs => pyBeq k k2 && pyBeq v v2 && pyBeqDict ps qs
  | _, _ => false

end

mutual

theorem pyBeq_eq : ∀ a b : PyVal, pyBeq a b = true → a = b
  | .pnone, .pnone, _ => rfl
  | .pbool a, .pbool b, h => by
    simp only [pyBeq, beq_iff_eq] at h; exact h ▸ rfl
  | .pint a, .pint b, h => by
    simp only [pyBeq, beq_iff_eq] at h; exact h ▸ rfl
  | .pstr a, .pstr b, h => by
    simp only [pyBeq, beq_iff_eq] at h; exact h ▸ rfl
  | .plist xs, .plist ys, h => by
    simp only [pyBeq] at h
    exact congrArg PyVal.plist (pyBeqList_eq xs ys h)
  | .pdict xs, .pdict ys, h => by
    simp only [pyBeq] at h
    exact congrArg PyVal.pdict (pyBeqDict_eq xs ys h)

theorem pyBeqList_eq : ∀ xs ys : List PyVal, pyBeqList xs ys = true → xs = ys
  | [], [], _ => rfl
  | x :: xs, y :: ys, h => by
    simp only [pyBeqList, Bool.and_eq_true] at h
    exact congr (congrArg List.cons (pyBeq_eq x y h.1)) (pyBeqList_eq xs ys h.2)

theorem pyBeqDict_eq : ∀ ps qs : List (PyVal × PyVal), pyBeqDict ps qs = true → ps = qs
  | [], [], _ => rfl
  | (k, v) :: ps, (k2, v2) :: qs, h => by
    simp only [pyBeqDict, Bool.and_eq_true] at h
    have h1 := pyBeq_eq k k2 h.1.1
    have h2 := pyBeq_eq v v2 h.1.2
    have h3 := pyBeqDict_eq ps qs h.2
    rw [h1, h2, h3]

end

mutual

theorem pyBeq_refl : ∀ a : PyVal, pyBeq a a = true
  | .pnone => rfl
  | .pbool a => by simp [pyBeq]
  | .pint a => by simp [pyBeq]
  | .pstr a => by simp [pyBeq]
  | .plist xs => by simp only [pyBeq]; exact pyBeqList_refl xs
  | .pdict xs => by simp only [pyBeq]; exact pyBeqDict_refl xs

theorem pyBeqList_refl : ∀ xs : List PyVal, pyBeqList xs xs = true
  | [] => rfl
  | x :: xs => by
    simp only [pyBeqList, Bool.and_eq_true]
    exact ⟨pyBeq_refl x, pyBeqList_refl xs⟩

theorem pyBeqDict_refl : ∀ ps : List (PyVal × PyVal), pyBeqDict ps ps = true
  | [] => rfl
  | (k, v) :: ps => by
    simp only [pyBeqDict, Bool.and_eq_true]
    exact ⟨⟨pyBeq_refl k, pyBeq_refl v⟩, pyBeqDict_refl ps⟩

end

instance : DecidableEq PyVal := fun a b =>
  if h : pyBeq a b = true then .isTrue (pyBeq_eq a b h)
  else .isFalse (fun e => h (e ▸ pyBeq_refl a))

/-! ### Code-point order on strings

Python sorts the keys of a dict (json.dumps with sort_keys=True) by the
built-in string order, lexicographic on code points.  A Bool-valued
comparator keeps every use kernel-reducible. -/

def charListLe : List Char → List Char → Bool
  | [], _ => true
  | _ :: _, [] => false
  | a :: as, b :: bs =>
    if a.toNat < b.toNat then true
    else if b.toNat < a.toNat then false
    else charListLe as bs

def strLe (s t : String) : Bool := charListLe s.data t.data

/-- Relation form of the key comparator on (raw key, serialized value)
pairs, as used to sort dict items. -/
def pairLe (p q : String × String) : Prop := strLe p.1 q.1 = true

instance : DecidableRel pairLe := fun p q => instDecidableEqBool (strLe p.1 q.1) true

/-- Model of sorted(dct.items()) inside json.dumps with sort_keys=True:
items sorted by key (keys of a Python dict are pairwise distinct, so the
value component never takes part in the comparison). -/
def sortPairs (ps : List (String × String)) : List (String × String) :=
  List.insertionSort pairLe ps

/-! ### json.dumps with sort_keys=True (ensure_ascii default)

The serializer returns none where json.dumps raises: the cache module
catches any such failure and falls back to a degraded key.  Dict keys
are required to be strings here; Python would coerce int, float, bool
and None keys to strings, a case no adapter exercises and no claim
depends on, while a tuple key (modelled, like lists, by plist) makes
json.dumps raise TypeError, which this model reflects by returning
none. -/

def hex4 (n : Nat) : List Char :=
  [hexChar ((n >>> 12) % 16), hexChar ((n >>> 8) % 16),
   hexChar ((n >>> 4) % 16), hexChar (n % 16)]

def jsonEscapeChar (c : Char) : List Char :=
  let n := c.toNat
  if c = '"' then ['\\', '"']
  else if c = '\\' then ['\\', '\\']
  else if n = 8 then ['\\', 'b']
  else if n = 9 then ['\\', 't']
  else if n = 10 then ['\\', 'n']
  else if n = 12 then ['\\', 'f']
  else if n = 13 then ['\\', 'r']
  else if 32 ≤ n ∧ n ≤ 126 then [c]
  else if n < 65536 then '\\' :: 'u' :: hex4 n
  else
    ('\\' :: 'u' :: hex4 (55296 + (n - 65536) / 1024)) ++
    ('\\' :: 'u' :: hex4 (56320 + (n - 65536) % 1024))

def jsonQuote (s : String) : String :=
  String.mk ('"' :: s.data.flatMap jsonEscapeChar ++ ['"'])

/-- Python repr of an int, as emitted by both str() and json.dumps. -/
def pyIntStr (n : Int) : String := toString n

def fmtPairs (ps : List (String × String)) : List String :=
  ps.map (fun p => jsonQuote p.1 ++ ": " ++ p.2)

mutual

def dumps : PyVal → Option String
  | .pnone => some "null"
  | .pbool b => some (if b then "true" else "false")
  | .pint n => some (pyIntStr n)
  | .pstr s => some (jsonQuote s)
  | .plist xs =>
    (dumpsList xs).map (fun ss => "[" ++ String.intercalate ", " ss ++ "]")
  | .pdict kvs =>
    (dumpsDict kvs).map (fun ps =>
      "\x7b" ++ String.intercalate ", " (fmtPairs (sortPairs ps)) ++ "\x7d")

def dumpsList : List PyVal → Option (List String)
  | [] => some []
  | x :: xs =>
    match dumps x, dumpsList xs with
    | some s, some ss => some (s :: ss)
    | _, _ => none

def dumpsDict : List (PyVal × PyVal) → Option (List (String × String))
  | [] => some []
  | (k, v) :: rest =>
    match k with
    | .pstr ks =>
      match dumps v, dumpsDict rest with
      | some s, some ss => some ((ks, s) :: ss)
      | _, _ => none
    | _ => none

end

/-- str(args) for the simple-argument branch of _compute_hash, which
fires exactly when isinstance(args, (str, int, float, bool)) holds or
args is None. -/
def pyStr : PyVal → Option String
  | .pstr s => some s
  | .pbool b => some (if b then "True" else "False")
  | .pint n => some (pyIntStr n)
  | .pnone => some "None"
  | _ => none

/-- Model of _compute_hash (src/utils/cache.py lines 122-147): simple
arguments are hashed through their str() form, anything else through
json.dumps with sort_keys=True; the SHA-256 hex digest of the utf-8
encoding is the key.  If serialization raises, the fallback key is the
string nohash_ followed by int(time.time()); the model passes the
current time in as now. -/
def compute_hash (now : Nat) (args : PyVal) : String :=
  match pyStr args with
  | some s => sha256Hex (utf8Bytes s)
  | none =>
    match dumps args with
    | some s => sha256Hex (utf8Bytes s)
    | none => "nohash_" ++ toString now

/-- The dictionary with entries args (the positional-argument tuple) and
kwargs (the keyword-argument dict) that both decorators hash. -/
def allArgsVal (args : List PyVal) (kwargs : List (String × PyVal)) : PyVal :=
  .pdict [(.pstr "args", .plist args),
          (.pstr "kwargs", .pdict (kwargs.map (fun p => (.pstr p.1, p.2))))]

example : dumps (allArgsVal [.pbool true] []) =
    some "\x7b\"args\": [true], \"kwargs\": \x7b\x7d\x7d" := rfl

example : dumps (.pdict [(.pstr "b", .pint 1), (.pstr "a", .pdict [(.pstr "y", .pint 2), (.pstr "x", .pint 3)])]) =
    some "\x7b\"a\": \x7b\"x\": 3, \"y\": 2\x7d, \"b\": 1\x7d" := rfl

example : sha256Hex (utf8Bytes "abc") =
    "ba7816bf8f01cfea414140de5dae2223b00361a396177a9cb410ff61f20015ad" := by decide

example : compute_hash 0 (allArgsVal [.pbool true] []) =
    "dd0d25705aa1d7083177d90f9e123c29e8a8d89daf3070bbfe6a06bde692aff7" := by decide

example : compute_hash 0 (allArgsVal [.pint 1] []) =
    "2da0b9c5f1a93f3096b5e6b58e16d62dca4a20600a461c3ac81d67c914731ab7" := by decide

/-! ### Order lemmas for the key comparator -/

theorem charListLe_total : ∀ as bs, charListLe as bs = true ∨ charListLe bs as = true := by
  intro as
  induction as with
  | nil => intro bs; left; rfl
  | cons a as ih =>
    intro bs
    cases bs with
    | nil => right; rfl
    | cons b bs =>
      simp only [charListLe]
      rcases Nat.lt_trichotomy a.toNat b.toNat with h | h | h
      · left; simp [h]
      · rcases ih bs with h2 | h2 <;> simp_all
      · right; simp [h, Nat.lt_asymm h]

theorem charListLe_trans : ∀ as bs cs, charListLe as bs = true → charListLe bs cs = true →
    charListLe as cs = true
  | [], _, _, _, _ => rfl
  | _ :: _, [], _, h1, _ => absurd h1 (by simp [charListLe])
  | _ :: _, _ :: _, [], _, h2 => absurd h2 (by simp [charListLe])
  | a :: as, b :: bs, c :: cs, h1, h2 => by
    simp only [charListLe] at h1 h2 ⊢
    split_ifs at h1 h2 ⊢ <;>
      first
        | rfl
        | exact Bool.noConfusion h1
        | exact Bool.noConfusion h2
        | (exfalso; omega)
        | exact charListLe_trans as bs cs h1 h2

theorem charListLe_antisymm : ∀ as bs, charListLe as bs = true → charListLe bs as = true →
    as = bs
  | [], [], _, _ => rfl
  | [], _ :: _, _, h2 => absurd h2 (by simp [charListLe])
  | _ :: _, [], h1, _ => absurd h1 (by simp [charListLe])
  | a :: as, b :: bs, h1, h2 => by
    simp only [charListLe] at h1 h2
    split_ifs at h1 h2 <;>
      first
        | exact Bool.noConfusion h1
        | exact Bool.noConfusion h2
        | (exfalso; omega)
        | (have hn : a.toNat = b.toNat := by omega
           have hab : a = b :=
             Char.eq_of_val_eq (UInt32.eq_of_toBitVec_eq (BitVec.eq_of_toNat_eq hn))
           rw [hab, charListLe_antisymm as bs h1 h2])

theorem strLe_trans {s t u : String} (h1 : strLe s t = true) (h2 : strLe t u = true) :
    strLe s u = true := charListLe_trans _ _ _ h1 h2

theorem strLe_total (s t : String) : strLe s t = true ∨ strLe t s = true :=
  charListLe_total _ _

theorem strLe_antisymm {s t : String} (h1 : strLe s t = true) (h2 : strLe t s = true) :
    s = t := by
  cases s; cases t; exact congrArg String.mk (charListLe_antisymm _ _ h1 h2)

instance : IsTotal (String × String) pairLe :=
  ⟨fun p q => strLe_total p.1 q.1⟩

instance : IsTrans (String × String) pairLe :=
  ⟨fun _ _ _ h1 h2 => strLe_trans h1 h2⟩

/-- Strict version of the key comparator, used to identify sorted
duplicate-free key sequences uniquely. -/
def pairLt (p q : String × String) : Prop := pairLe p q ∧ p.1 ≠ q.1

instance : IsAntisymm (String × String) pairLt :=
  ⟨fun _ _ h1 h2 => absurd (strLe_antisymm h1.1 h2.1) h1.2⟩

/-- Sorting item lists that are permutations of each other and have
duplicate-free keys gives the same result. -/
theorem sortPairs_perm_eq {p1 p2 : List (String × String)}
    (hp : List.Perm p1 p2) (hnd : (p1.map Prod.fst).Nodup) : sortPairs p1 = sortPairs p2 := by
  have hs1 : List.Sorted pairLe (sortPairs p1) := List.sorted_insertionSort pairLe p1
  have hs2 : List.Sorted pairLe (sortPairs p2) := List.sorted_insertionSort pairLe p2
  have hperm : List.Perm (sortPairs p1) (sortPairs p2) :=
    (List.perm_insertionSort pairLe p1).trans (hp.trans (List.perm_insertionSort pairLe p2).symm)
  have hnd1 : ((sortPairs p1).map Prod.fst).Nodup :=
    (((List.perm_insertionSort pairLe p1).map Prod.fst).nodup_iff).mpr hnd
  have hnd2 : ((sortPairs p2).map Prod.fst).Nodup := ((hperm.map Prod.fst).nodup_iff).mp hnd1
  have hpw1 : (sortPairs p1).Pairwise (fun p q => p.1 ≠ q.1) := List.pairwise_map.mp hnd1
  have hpw2 : (sortPairs p2).Pairwise (fun p q => p.1 ≠ q.1) := List.pairwise_map.mp hnd2
  have hst1 : List.Sorted pairLt (sortPairs p1) := hs1.and hpw1
  have hst2 : List.Sorted pairLt (sortPairs p2) := hs2.and hpw2
  exact List.eq_of_perm_of_sorted hperm hst1 hst2

/-! ### Serialization under permutation of dict items -/

def optMap {α β : Type} (f : α → Option β) : List α → Option (List β)
  | [] => some []
  | x :: xs =>
    match f x, optMap f xs with
    | some y, some ys => some (y :: ys)
    | _, _ => none

theorem optMap_perm {α β : Type} (f : α → Option β) {l1 l2 : List α} (h : List.Perm l1 l2) :
    (optMap f l1 = none ∧ optMap f l2 = none) ∨
    ∃ p q, optMap f l1 = some p ∧ optMap f l2 = some q ∧ List.Perm p q := by
  induction h with
  | nil => exact .inr ⟨[], [], rfl, rfl, .nil⟩
  | cons x h ih =>
    cases hfx : f x with
    | none => exact .inl ⟨by simp [optMap, hfx], by simp [optMap, hfx]⟩
    | some y =>
      rcases ih with ⟨h1, h2⟩ | ⟨p, q, h1, h2, hpq⟩
      · exact .inl ⟨by simp [optMap, hfx, h1], by simp [optMap, hfx, h2]⟩
      · exact .inr ⟨y :: p, y :: q, by simp [optMap, hfx, h1], by simp [optMap, hfx, h2],
          hpq.cons y⟩
  | swap x y l =>
    cases hfx : f x with
    | none => exact .inl ⟨by simp [optMap, hfx], by simp [optMap, hfx]⟩
    | some fx =>
      cases hfy : f y with
      | none => exact .inl ⟨by simp [optMap, hfx, hfy], by simp [optMap, hfx, hfy]⟩
      | some fy =>
        cases hl : optMap f l with
        | none => exact .inl ⟨by simp [optMap, hfx, hfy, hl], by simp [optMap, hfx, hfy, hl]⟩
        | some r =>
          exact .inr ⟨fy :: fx :: r, fx :: fy :: r,
            by simp [optMap, hfx, hfy, hl], by simp [optMap, hfx, hfy, hl],
            List.Perm.swap fx fy r⟩
  | trans h1 h2 ih1 ih2 =>
    rcases ih1 with ⟨a1, a2⟩ | ⟨p, q, a1, a2, hpq⟩
    · rcases ih2 with ⟨b1, b2⟩ | ⟨_, _, b1, b2, _⟩
      · exact .inl ⟨a1, b2⟩
      · rw [a2] at b1; exact absurd b1 (by simp)
    · rcases ih2 with ⟨b1, b2⟩ | ⟨p2, q2, b1, b2, hpq2⟩
      · rw [a2] at b1; exact absurd b1 (by simp)
      · rw [a2] at b1
        injection b1 with hq
        exact .inr ⟨p, q2, a1, b2, (hq ▸ hpq).trans hpq2⟩

/-- Serialization of a single dict item. -/
def dumpEntry : PyVal × PyVal → Option (String × String)
  | (.pstr ks, v) => (dumps v).map (fun s => (ks, s))
  | _ => none

theorem dumpsList_eq_optMap : ∀ xs, dumpsList xs = optMap dumps xs
  | [] => rfl
  | x :: xs => by
    simp only [dumpsList, optMap, dumpsList_eq_optMap xs]
    cases dumps x <;> cases optMap dumps xs <;> rfl

theorem dumpsDict_eq_optMap : ∀ ps, dumpsDict ps = optMap dumpEntry ps
  | [] => rfl
  | (k, v) :: ps => by
    cases k with
    | pstr ks =>
      simp only [dumpsDict, dumpsDict_eq_optMap ps, optMap, dumpEntry]
      cases dumps v <;> cases optMap dumpEntry ps <;> simp
    | pnone => rfl
    | pbool b => rfl
    | pint n => rfl
    | plist xs => rfl
    | pdict kvs => rfl

/-- The keys of a successfully serialized dict are the raw strings of
its pstr keys, in order. -/
theorem dumpEntry_keys : ∀ {ps : List (PyVal × PyVal)} {qs : List (String × String)},
    optMap dumpEntry ps = some qs →
    List.map Prod.fst ps = List.map (fun q => PyVal.pstr q.1) qs
  | [], qs, h => by
    simp only [optMap] at h
    injection h with h
    rw [← h]; rfl
  | (k, v) :: ps, qs, h => by
    cases hk : dumpEntry (k, v) with
    | none => rw [optMap, hk] at h; exact absurd h (by simp)
    | some e =>
      cases hrest : optMap dumpEntry ps with
      | none => rw [optMap, hk, hrest] at h; exact absurd h (by simp)
      | some es =>
        rw [optMap, hk, hrest] at h
        injection h with h
        have hkey : k = .pstr e.1 := by
          cases k with
          | pstr ks =>
            simp only [dumpEntry] at hk
            cases hv : dumps v with
            | none => rw [hv] at hk; exact absurd hk (by simp)
            | some s =>
              rw [hv] at hk
              injection hk with hk
              rw [← hk]
          | pnone => exact absurd hk (by simp [dumpEntry])
          | pbool b => exact absurd hk (by simp [dumpEntry])
          | pint n => exact absurd hk (by simp [dumpEntry])
          | plist xs => exact absurd hk (by simp [dumpEntry])
          | pdict kvs => exact absurd hk (by simp [dumpEntry])
        rw [← h]
        simp only [List.map]
        rw [hkey, dumpEntry_keys hrest]

/-! ### Python equality and structural JSON equivalence

PyEq is a sound model of the Python == relation on the embedded value
fragment: literal equality on None and strings, numeric equality across
bool and int (True == 1 and False == 0 in Python), elementwise equality
on sequences, and insertion-order-independent equality on dicts
(modelled for duplicate-free key lists, the only lists that arise from
Python dict literals).

JsonEquiv is the finer relation of equality up to insertion order of
dict items: payloads of leaf constructors must agree exactly (so a bool
is never JsonEquiv to an int), list elements correspond in order, and
dict item lists correspond up to a permutation, with duplicate-free
keys.  JsonEquiv captures exactly the degrees of freedom that the
canonical serialization of json.dumps with sort_keys=True removes. -/

/-- The numeric value of a Python value that is an instance of int
(bool is a subtype of int in Python). -/
def pyNumVal : PyVal → Option Int
  | .pbool b => some (if b then 1 else 0)
  | .pint n => some n
  | _ => none

mutual

inductive PyEq : PyVal → PyVal → Prop where
  | pnone : PyEq .pnone .pnone
  | pstr (s : String) : PyEq (.pstr s) (.pstr s)
  | num {a b : PyVal} {n : Int} : pyNumVal a = some n → pyNumVal b = some n → PyEq a b
  | plist {xs ys : List PyVal} : PyEqList xs ys → PyEq (.plist xs) (.plist ys)
  | pdict {xs zs ys : List (PyVal × PyVal)} : List.Perm xs zs → PyEqDict zs ys →
      PyEq (.pdict xs) (.pdict ys)

inductive PyEqList : List PyVal → List PyVal → Prop where
  | nil : PyEqList [] []
  | cons {x y : PyVal} {xs ys : List PyVal} : PyEq x y → PyEqList xs ys →
      PyEqList (x :: xs) (y :: ys)

inductive PyEqDict : List (PyVal × PyVal) → List (PyVal × PyVal) → Prop where
  | nil : PyEqDict [] []
  | cons {k k2 v v2 : PyVal} {ps qs : List (PyVal × PyVal)} : PyEq k k2 → PyEq v v2 →
      PyEqDict ps qs → PyEqDict ((k, v) :: ps) ((k2, v2) :: qs)

end

mutual

inductive JsonEquiv : PyVal → PyVal → Prop where
  | pnone : JsonEquiv .pnone .pnone
  | pbool (b : Bool) : JsonEquiv (.pbool b) (.pbool b)
  | pint (n : Int) : JsonEquiv (.pint n) (.pint n)
  | pstr (s : String) : JsonEquiv (.pstr s) (.pstr s)
  | plist {xs ys : List PyVal} : JsonEquivList xs ys → JsonEquiv (.plist xs) (.plist ys)
  | pdict {xs zs ys : List (PyVal × PyVal)} : List.Perm xs zs → JsonEquivDict zs ys →
      (List.map Prod.fst xs).Nodup → JsonEquiv (.pdict xs) (.pdict ys)

inductive JsonEquivList : List PyVal → List PyVal → Prop where
  | nil : JsonEquivList [] []
  | cons {x y : PyVal} {xs ys : List PyVal} : JsonEquiv x y → JsonEquivList xs ys →
      JsonEquivList (x :: xs) (y :: ys)

inductive JsonEquivDict : List (PyVal × PyVal) → List (PyVal × PyVal) → Prop where
  | nil : JsonEquivDict [] []
  | cons {k v w : PyVal} {ps qs : List (PyVal × PyVal)} : JsonEquiv v w → JsonEquivDict ps qs →
      JsonEquivDict ((k, v) :: ps) ((k, w) :: qs)

end

mutual

theorem dumps_congr : ∀ {a b : PyVal}, JsonEquiv a b → dumps a = dumps b
  | _, _, .pnone => rfl
  | _, _, .pbool _ => rfl
  | _, _, .pint _ => rfl
  | _, _, .pstr _ => rfl
  | _, _, .plist h => by
    simp only [dumps]
    rw [dumpsList_congr h]
  | _, _, @JsonEquiv.pdict xs zs ys hperm hd hnd => by
    have hzy : dumpsDict zs = dumpsDict ys := dumpsDict_congr hd
    have hopt := optMap_perm dumpEntry hperm
    simp only [dumps, dumpsDict_eq_optMap]
    rw [dumpsDict_eq_optMap, dumpsDict_eq_optMap] at hzy
    rcases hopt with ⟨h1, h2⟩ | ⟨p, q, h1, h2, hpq⟩
    · rw [h1, ← hzy, h2]
    · have hys : optMap dumpEntry ys = some q := hzy.symm.trans h2
      have hkeys := dumpEntry_keys h1
      rw [hkeys] at hnd
      have hnd2 : ((p.map Prod.fst).map PyVal.pstr).Nodup := by
        rw [List.map_map]; exact hnd
      have hndp : (p.map Prod.fst).Nodup := List.Nodup.of_map _ hnd2
      rw [h1, hys]
      simp only [Option.map_some']
      rw [sortPairs_perm_eq hpq hndp]

theorem dumpsList_congr : ∀ {xs ys : List PyVal}, JsonEquivList xs ys →
    dumpsList xs = dumpsList ys
  | _, _, .nil => rfl
  | _, _, .cons h hs => by
    simp only [dumpsList]
    rw [dumps_congr h, dumpsList_congr hs]

theorem dumpsDict_congr : ∀ {ps qs : List (PyVal × PyVal)}, JsonEquivDict ps qs →
    dumpsDict ps = dumpsDict qs
  | _, _, .nil => rfl
  | _, _, @JsonEquivDict.cons k _ _ _ _ h hs => by
    cases k with
    | pstr ks =>
      simp only [dumpsDict]
      rw [dumps_congr h, dumpsDict_congr hs]
    | pnone => rfl
    | pbool b => rfl
    | pint n => rfl
    | plist xs => rfl
    | pdict kvs => rfl

end

theorem pyStr_congr {a b : PyVal} (h : JsonEquiv a b) : pyStr a = pyStr b := by
  cases h <;> rfl

theorem compute_hash_congr (now : Nat) {a b : PyVal} (h : JsonEquiv a b) :
    compute_hash now a = compute_hash now b := by
  unfold compute_hash
  rw [pyStr_congr h, dumps_congr h]

/-- C2 counterexample: the argument tuples containing True and 1 are
deeply equal as Python values (True == 1), yet json.dumps serializes
them as the texts true and 1, so _compute_hash derives different cache
keys for them.  Key derivation is therefore not deterministic over deep
value equality. -/
theorem compute_hash_pyeq_counterexample :
    PyEq (allArgsVal [.pbool true] []) (allArgsVal [.pint 1] []) ∧
    compute_hash 0 (allArgsVal [.pbool true] []) ≠ compute_hash 0 (allArgsVal [.pint 1] []) := by
  constructor
  · show PyEq (.pdict [(.pstr "args", .plist [.pbool true]), (.pstr "kwargs", .pdict [])])
      (.pdict [(.pstr "args", .plist [.pint 1]), (.pstr "kwargs", .pdict [])])
    exact PyEq.pdict (List.Perm.refl _)
      (PyEqDict.cons (PyEq.pstr "args")
        (PyEq.plist (PyEqList.cons (PyEq.num rfl rfl) PyEqList.nil))
        (PyEqDict.cons (PyEq.pstr "kwargs") (PyEq.pdict (List.Perm.refl _) PyEqDict.nil)
          PyEqDict.nil))
  · decide

/-- C2 (amended): key derivation is deterministic over structural
equality up to insertion order of keyword arguments and nested mapping
items with duplicate-free keys, provided equal leaves have identical
representations (bool with bool, int with int); it is not deterministic
over full Python deep equality, which also identifies True with 1. -/
theorem compute_hash_deterministic (now : Nat) (args1 args2 : List PyVal)
    (kwargs1 kwargs2 : List (String × PyVal))
    (h : JsonEquiv (allArgsVal args1 kwargs1) (allArgsVal args2 kwargs2)) :
    compute_hash now (allArgsVal args1 kwargs1) = compute_hash now (allArgsVal args2 kwargs2) :=
  compute_hash_congr now h

/-- Witness for the amended C2 theorem: swapping the insertion order of
two keyword arguments leaves the derived key unchanged. -/
theorem compute_hash_deterministic_witness :
    JsonEquiv (allArgsVal [.pint 5] [("x", .pint 1), ("y", .pstr "a")])
      (allArgsVal [.pint 5] [("y", .pstr "a"), ("x", .pint 1)]) ∧
    compute_hash 7 (allArgsVal [.pint 5] [("x", .pint 1), ("y", .pstr "a")]) =
      compute_hash 7 (allArgsVal [.pint 5] [("y", .pstr "a"), ("x", .pint 1)]) := by
  have hj : JsonEquiv (allArgsVal [.pint 5] [("x", .pint 1), ("y", .pstr "a")])
      (allArgsVal [.pint 5] [("y", .pstr "a"), ("x", .pint 1)]) := by
    show JsonEquiv
      (.pdict [(.pstr "args", .plist [.pint 5]),
               (.pstr "kwargs", .pdict [(.pstr "x", .pint 1), (.pstr "y", .pstr "a")])])
      (.pdict [(.pstr "args", .plist [.pint 5]),
               (.pstr "kwargs", .pdict [(.pstr "y", .pstr "a"), (.pstr "x", .pint 1)])])
    refine JsonEquiv.pdict (List.Perm.refl _) ?_ (by decide)
    refine JsonEquivDict.cons (JsonEquiv.plist (JsonEquivList.cons (JsonEquiv.pint 5)
      JsonEquivList.nil)) ?_
    refine JsonEquivDict.cons ?_ JsonEquivDict.nil
    exact JsonEquiv.pdict
      (List.Perm.swap (PyVal.pstr "y", PyVal.pstr "a") (PyVal.pstr "x", PyVal.pint 1) [])
      (JsonEquivDict.cons (JsonEquiv.pstr "a")
        (JsonEquivDict.cons (JsonEquiv.pint 1) JsonEquivDict.nil))
      (by decide)
  exact ⟨hj, compute_hash_deterministic 7 _ _ _ _ hj⟩

/-! ### LRUCache (src/utils/cache.py lines 24-97)

The OrderedDict self._cache is modelled as an association list in
insertion-recency order: front of the list is the oldest (least
recently used) entry, the end the most recent. -/

structure LRUItem where
  value : PyVal
  timestamp : Nat
  deriving DecidableEq

structure LRUCache where
  maxsize : Nat
  timeout : Option Nat
  cache : List (String × LRUItem)
  deriving DecidableEq

def assocFind : List (String × LRUItem) → String → Option LRUItem
  | [], _ => none
  | (k, it) :: rest, key => if k = key then some it else assocFind rest key

/-- Model of del on the ordered mapping. -/
def odErase (l : List (String × LRUItem)) (key : String) : List (String × LRUItem) :=
  l.filter (fun p => p.1 != key)

/-- Model of move_to_end on the ordered mapping. -/
def odMoveToEnd (l : List (String × LRUItem)) (key : String) : List (String × LRUItem) :=
  match assocFind l key with
  | none => l
  | some it => odErase l key ++ [(key, it)]

/-- Model of indexed assignment on the ordered mapping: replaces the
value in place when the key is present, appends at the end otherwise. -/
def odAssign : List (String × LRUItem) → String → LRUItem → List (String × LRUItem)
  | [], key, it => [(key, it)]
  | (k, it0) :: rest, key, it =>
    if k = key then (k, it) :: rest else (k, it0) :: odAssign rest key it

/-- Expiry test in LRUCache.get: the item is dropped when a timeout is
configured and now minus the item timestamp exceeds it strictly (an
in-memory entry of age exactly timeout is still served). -/
def lruExpired (timeout : Option Nat) (age : Nat) : Bool :=
  match timeout with
  | none => false
  | some t => age > t

def LRUCache.get (c : LRUCache) (key : String) (now : Nat) : PyVal × LRUCache :=
  match assocFind c.cache key with
  | none => (.pnone, c)
  | some it =>
    if lruExpired c.timeout (now - it.timestamp) then
      (.pnone, { c with cache := odErase c.cache key })
    else
      (it.value, { c with cache := odMoveToEnd c.cache key })

def LRUCache.set (c : LRUCache) (key : String) (v : PyVal) (now : Nat) : LRUCache :=
  let l0 := if (assocFind c.cache key).isSome then odMoveToEnd c.cache key else c.cache
  let l1 := odAssign l0 key { value := v, timestamp := now }
  let l2 := if l1.length > c.maxsize then l1.tail else l1
  { c with cache := l2 }

def LRUCache.clear (c : LRUCache) : LRUCache := { c with cache := [] }

/-! ### memory_cache (src/utils/cache.py lines 150-184)

The module-level LRUCache instance and the invocation count of the
wrapped function are threaded as explicit state.  The wrapped function
is modelled as a map from its prior invocation count to its result,
which covers counting stubs and constant functions alike. -/

structure MemState where
  cache : LRUCache
  calls : Nat
  deriving DecidableEq

def memKey (funcName : String) (now : Nat) (args : List PyVal)
    (kwargs : List (String × PyVal)) : String :=
  funcName ++ ":" ++ compute_hash now (allArgsVal args kwargs)

def memory_cache_wrapper (enableCache : Bool) (funcName : String) (func : Nat → PyVal)
    (now : Nat) (args : List PyVal) (kwargs : List (String × PyVal))
    (st : MemState) : PyVal × MemState :=
  if enableCache = false then
    (func st.calls, { st with calls := st.calls + 1 })
  else
    let key := memKey funcName now args kwargs
    let res := st.cache.get key now
    if res.1 ≠ .pnone then
      (res.1, { st with cache := res.2 })
    else
      let v := func st.calls
      (v, { cache := res.2.set key v now, calls := st.calls + 1 })

/-! ### Ordered-mapping lemmas -/

theorem odErase_length_le (l : List (String × LRUItem)) (key : String) :
    (odErase l key).length ≤ l.length :=
  List.length_filter_le _ l

theorem odErase_length_lt : ∀ {l : List (String × LRUItem)} {key : String} {it : LRUItem},
    assocFind l key = some it → (odErase l key).length < l.length := by
  intro l
  induction l with
  | nil => intro key it h; exact absurd h (by simp [assocFind])
  | cons p rest ih =>
    intro key it h
    obtain ⟨k, it0⟩ := p
    by_cases hk : k = key
    · have hne : ((k, it0).1 != key) = false := by simp [hk]
      simp [odErase, List.filter_cons, hne]
      exact Nat.lt_succ_of_le (odErase_length_le rest key)
    · have hne : ((k, it0).1 != key) = true := by simp [hk]
      simp only [assocFind, if_neg hk] at h
      have := ih h
      simp only [odErase] at this
      simp [odErase, List.filter_cons, hne]
      omega

theorem odErase_length_of_nodup : ∀ {l : List (String × LRUItem)} {key : String} {it : LRUItem},
    (l.map Prod.fst).Nodup → assocFind l key = some it →
    (odErase l key).length + 1 = l.length := by
  intro l
  induction l with
  | nil => intro key it _ h; exact absurd h (by simp [assocFind])
  | cons p rest ih =>
    intro key it hnd h
    obtain ⟨k, it0⟩ := p
    simp only [List.map, List.nodup_cons] at hnd
    by_cases hk : k = key
    · have hne : ((k, it0).1 != key) = false := by simp [hk]
      have hrest : odErase rest key = rest := by
        apply List.filter_eq_self.mpr
        intro a ha
        have hne2 : a.1 ≠ key := fun he => hnd.1 (List.mem_map.mpr ⟨a, ha, he.trans hk.symm⟩)
        simp [hne2]
      simp only [odErase] at hrest
      simp [odErase, List.filter_cons, hne, hrest]
    · have hne : ((k, it0).1 != key) = true := by simp [hk]
      simp only [assocFind, if_neg hk] at h
      have := ih hnd.2 h
      simp only [odErase] at this
      simp [odErase, List.filter_cons, hne]
      omega

theorem assocFind_odErase_self (l : List (String × LRUItem)) (key : String) :
    assocFind (odErase l key) key = none := by
  induction l with
  | nil => rfl
  | cons p rest ih =>
    obtain ⟨k, it0⟩ := p
    by_cases hk : k = key
    · have hne : ((k, it0).1 != key) = false := by simp [hk]
      simpa [odErase, List.filter_cons, hne] using ih
    · have hne : ((k, it0).1 != key) = true := by simp [hk]
      simp only [odErase, List.filter_cons, hne, if_true]
      simp only [odErase] at ih
      simp [assocFind, hk, ih]

theorem assocFind_append_right {l : List (String × LRUItem)} {key : String}
    (h : assocFind l key = none) (m : List (String × LRUItem)) :
    assocFind (l ++ m) key = assocFind m key := by
  induction l with
  | nil => rfl
  | cons p rest ih =>
    obtain ⟨k, it0⟩ := p
    by_cases hk : k = key
    · simp [assocFind, hk] at h
    · simp only [assocFind, if_neg hk] at h
      simp only [List.cons_append, assocFind, if_neg hk]
      exact ih h

theorem odAssign_absent : ∀ {l : List (String × LRUItem)} {key : String} (it : LRUItem),
    assocFind l key = none → odAssign l key it = l ++ [(key, it)] := by
  intro l
  induction l with
  | nil => intro key it _; rfl
  | cons p rest ih =>
    intro key it h
    obtain ⟨k, it0⟩ := p
    by_cases hk : k = key
    · simp [assocFind, hk] at h
    · simp only [assocFind, if_neg hk] at h
      simp only [odAssign, if_neg hk, List.cons_append]
      rw [ih it h]

theorem odAssign_after_append : ∀ {p : List (String × LRUItem)} {key : String}
    (old it : LRUItem), assocFind p key = none →
    odAssign (p ++ [(key, old)]) key it = p ++ [(key, it)] := by
  intro p
  induction p with
  | nil => intro key old it _; simp [odAssign]
  | cons q rest ih =>
    intro key old it h
    obtain ⟨k, it0⟩ := q
    by_cases hk : k = key
    · simp [assocFind, hk] at h
    · simp only [assocFind, if_neg hk] at h
      simp only [List.cons_append, odAssign, if_neg hk]
      exact congrArg (List.cons (k, it0)) (ih old it h)

theorem odAssign_length_le : ∀ (l : List (String × LRUItem)) (key : String) (it : LRUItem),
    (odAssign l key it).length ≤ l.length + 1 := by
  intro l
  induction l with
  | nil => intro key it; simp [odAssign]
  | cons p rest ih =>
    intro key it
    obtain ⟨k, it0⟩ := p
    by_cases hk : k = key
    · simp [odAssign, hk]
    · simp only [odAssign, if_neg hk, List.length_cons]
      exact Nat.succ_le_succ (ih key it)

/-- After any LRUCache.set, the mapping is a duplicate-free-in-key
prefix followed by the fresh item, possibly with its front entry
dropped by the eviction step. -/
theorem set_cache_shape (c : LRUCache) (key : String) (v : PyVal) (now : Nat) :
    ∃ p, assocFind p key = none ∧
      ((c.set key v now).cache = p ++ [(key, ({ value := v, timestamp := now } : LRUItem))] ∨
       (c.set key v now).cache =
         (p ++ [(key, ({ value := v, timestamp := now } : LRUItem))]).tail) := by
  simp only [LRUCache.set]
  cases hfind : assocFind c.cache key with
  | none =>
    refine ⟨c.cache, hfind, ?_⟩
    simp only [hfind, Option.isSome_none, Bool.false_eq_true, if_false]
    rw [odAssign_absent _ hfind]
    by_cases hlen : c.maxsize < c.cache.length + 1
    · right; simp [hlen]
    · left; simp [hlen]
  | some it =>
    refine ⟨odErase c.cache key, assocFind_odErase_self c.cache key, ?_⟩
    simp only [hfind, Option.isSome_some, if_true]
    have hmove : odMoveToEnd c.cache key = odErase c.cache key ++ [(key, it)] := by
      simp [odMoveToEnd, hfind]
    rw [hmove, odAssign_after_append it _ (assocFind_odErase_self c.cache key)]
    by_cases hlen : c.maxsize < (odErase c.cache key).length + 1
    · right; simp [hlen]
    · left; simp [hlen]

/-- A value stored by set is found again by a lookup of the same key
unless it was the sole entry evicted; a stored None therefore can only
read back as None. -/
theorem set_get_pnone (c : LRUCache) (key : String) (now1 now2 : Nat) :
    ((c.set key .pnone now1).get key now2).1 = .pnone := by
  obtain ⟨p, hp, hcase | hcase⟩ := set_cache_shape c key .pnone now1
  · have hfind : assocFind (c.set key .pnone now1).cache key = some ⟨.pnone, now1⟩ := by
      rw [hcase, assocFind_append_right hp]
      simp [assocFind]
    simp only [LRUCache.get, hfind]
    split <;> rfl
  · cases hq : p with
    | nil =>
      have : (c.set key .pnone now1).cache = [] := by rw [hcase, hq]; rfl
      simp [LRUCache.get, this, assocFind]
    | cons q rest =>
      obtain ⟨k, it0⟩ := q
      have hrest : assocFind rest key = none := by
        rw [hq] at hp
        by_cases hk : k = key
        · simp [assocFind, hk] at hp
        · simpa [assocFind, hk] using hp
      have hfind : assocFind (c.set key .pnone now1).cache key = some ⟨.pnone, now1⟩ := by
        rw [hcase, hq]
        simp only [List.cons_append, List.tail_cons]
        rw [assocFind_append_right hrest]
        simp [assocFind]
      simp only [LRUCache.get, hfind]
      split <;> rfl

theorem ite_tail_length_le {l : List (String × LRUItem)} {m : Nat} (h : l.length ≤ m + 1) :
    (if l.length > m then l.tail else l).length ≤ m := by
  by_cases hc : l.length > m
  · simp only [hc, if_true, List.length_tail]
    omega
  · simp only [hc, if_false]
    omega

theorem lru_set_length_le (c : LRUCache) (key : String) (v : PyVal) (now : Nat)
    (hwf : c.cache.length ≤ c.maxsize) : (c.set key v now).cache.length ≤ c.maxsize := by
  simp only [LRUCache.set]
  apply ite_tail_length_le
  have hassign := odAssign_length_le
    (if (assocFind c.cache key).isSome then odMoveToEnd c.cache key else c.cache) key
    { value := v, timestamp := now }
  have hl0 : (if (assocFind c.cache key).isSome then odMoveToEnd c.cache key
      else c.cache).length ≤ c.cache.length := by
    cases hfind : assocFind c.cache key with
    | none => simp
    | some it =>
      simp only [Option.isSome_some, if_true, odMoveToEnd, hfind]
      rw [List.length_append]
      have := odErase_length_lt hfind
      simp only [List.length_cons, List.length_nil]
      omega
  omega

theorem lru_get_length_le (c : LRUCache) (key : String) (now : Nat)
    (hwf : c.cache.length ≤ c.maxsize) : ((c.get key now).2).cache.length ≤ c.maxsize := by
  simp only [LRUCache.get]
  cases hfind : assocFind c.cache key with
  | none => simpa using hwf
  | some it =>
    cases hexp : lruExpired c.timeout (now - it.timestamp) with
    | true =>
      simp only [hexp, if_true]
      exact le_trans (odErase_length_le _ _) hwf
    | false =>
      have h2 := odErase_length_lt hfind
      simp [hexp, odMoveToEnd, hfind]
      omega

theorem lru_set_evicts_front (c : LRUCache) (key : String) (v : PyVal) (now : Nat)
    (habs : assocFind c.cache key = none) (hfull : c.cache.length = c.maxsize)
    (hpos : 0 < c.maxsize) :
    (c.set key v now).cache = c.cache.tail ++ [(key, { value := v, timestamp := now })] := by
  simp only [LRUCache.set, habs, Option.isSome_none, Bool.false_eq_true, if_false]
  rw [odAssign_absent _ habs]
  have hcond : (c.cache ++ [(key, ({ value := v, timestamp := now } : LRUItem))]).length
      > c.maxsize := by
    rw [List.length_append]
    simp only [List.length_cons, List.length_nil]
    omega
  rw [if_pos hcond]
  cases hc : c.cache with
  | nil =>
    rw [hc] at hfull
    simp only [List.length_nil] at hfull
    omega
  | cons a rest => simp

theorem lru_set_overwrite (c : LRUCache) (key : String) (v : PyVal) (now : Nat)
    (hwf : c.cache.length ≤ c.maxsize) (hnd : (c.cache.map Prod.fst).Nodup)
    {it : LRUItem} (hfind : assocFind c.cache key = some it) :
    (c.set key v now).cache.length = c.cache.length ∧
    (c.set key v now).cache =
      odAssign (odMoveToEnd c.cache key) key { value := v, timestamp := now } := by
  have hmove : odMoveToEnd c.cache key = odErase c.cache key ++ [(key, it)] := by
    simp [odMoveToEnd, hfind]
  have hassign : odAssign (odMoveToEnd c.cache key) key { value := v, timestamp := now }
      = odErase c.cache key ++ [(key, { value := v, timestamp := now })] := by
    rw [hmove]
    exact odAssign_after_append it _ (assocFind_odErase_self c.cache key)
  have hlen : (odAssign (odMoveToEnd c.cache key) key { value := v, timestamp := now }).length
      = c.cache.length := by
    rw [hassign, List.length_append]
    have := odErase_length_of_nodup hnd hfind
    simp only [List.length_cons, List.length_nil]
    omega
  have hcond : ¬((odAssign (odMoveToEnd c.cache key) key
      { value := v, timestamp := now }).length > c.maxsize) := by
    rw [hlen]
    omega
  have hres : (c.set key v now).cache =
      odAssign (odMoveToEnd c.cache key) key { value := v, timestamp := now } := by
    simp only [LRUCache.set, hfind, Option.isSome_some, if_true]
    rw [if_neg hcond]
  exact ⟨by rw [hres, hlen], hres⟩

theorem lru_get_touches (c : LRUCache) (key : String) (now : Nat) {it : LRUItem}
    (hfind : assocFind c.cache key = some it)
    (hexp : lruExpired c.timeout (now - it.timestamp) = false) :
    c.get key now = (it.value, { c with cache := odErase c.cache key ++ [(key, it)] }) := by
  simp only [LRUCache.get, hfind]
  rw [if_neg (by simp [hexp])]
  simp [odMoveToEnd, hfind]

/-- C8: the in-memory cache is a bounded classic LRU.  After get, set
or clear from a state within capacity the mapping stays within
capacity; a set of a new key at full capacity evicts exactly the front
(least recently used) entry, keeping all others in order and appending
the new entry as most recent; a set of an existing key evicts nothing
(the size is unchanged, the entry moves to the most-recent end with the
new value); a get of a live key moves that entry to the most-recent
end, so both get and set count as recency touches. -/
theorem lru_bounded_classic_lru (c : LRUCache) (key : String) (v : PyVal) (now : Nat)
    (hwf : c.cache.length ≤ c.maxsize) (hnd : (c.cache.map Prod.fst).Nodup) :
    ((c.set key v now).cache.length ≤ c.maxsize ∧
      (c.get key now).2.cache.length ≤ c.maxsize ∧ c.clear.cache.length ≤ c.maxsize) ∧
    (assocFind c.cache key = none → c.cache.length = c.maxsize → 0 < c.maxsize →
      (c.set key v now).cache = c.cache.tail ++ [(key, { value := v, timestamp := now })]) ∧
    (∀ it, assocFind c.cache key = some it →
      (c.set key v now).cache.length = c.cache.length ∧
      (c.set key v now).cache =
        odAssign (odMoveToEnd c.cache key) key { value := v, timestamp := now }) ∧
    (∀ it, assocFind c.cache key = some it →
      lruExpired c.timeout (now - it.timestamp) = false →
      c.get key now = (it.value, { c with cache := odErase c.cache key ++ [(key, it)] })) := by
  refine ⟨⟨lru_set_length_le c key v now hwf, lru_get_length_le c key now hwf,
    by simp [LRUCache.clear]⟩, ?_, ?_, ?_⟩
  · exact fun h1 h2 h3 => lru_set_evicts_front c key v now h1 h2 h3
  · exact fun it hf => lru_set_overwrite c key v now hwf hnd hf
  · exact fun it hf he => lru_get_touches c key now hf he

/-- A three-entry cache at capacity, used to exercise the LRU theorem. -/
def lruWitnessCache : LRUCache :=
  { maxsize := 2, timeout := some 3600,
    cache := [("a", { value := .pint 1, timestamp := 0 }),
              ("b", { value := .pint 2, timestamp := 0 })] }

/-- Witness for the C8 theorem at a concrete full cache and fresh key. -/
theorem lru_bounded_classic_lru_witness :
    (lruWitnessCache.cache.length ≤ lruWitnessCache.maxsize ∧
      (lruWitnessCache.cache.map Prod.fst).Nodup) ∧
    ((lruWitnessCache.set "c" (.pint 3) 10).cache.length ≤ lruWitnessCache.maxsize ∧
      (lruWitnessCache.get "c" 10).2.cache.length ≤ lruWitnessCache.maxsize ∧
      lruWitnessCache.clear.cache.length ≤ lruWitnessCache.maxsize) ∧
    (assocFind lruWitnessCache.cache "c" = none →
      lruWitnessCache.cache.length = lruWitnessCache.maxsize → 0 < lruWitnessCache.maxsize →
      (lruWitnessCache.set "c" (.pint 3) 10).cache =
        lruWitnessCache.cache.tail ++ [("c", { value := .pint 3, timestamp := 10 })]) ∧
    (∀ it, assocFind lruWitnessCache.cache "c" = some it →
      (lruWitnessCache.set "c" (.pint 3) 10).cache.length = lruWitnessCache.cache.length ∧
      (lruWitnessCache.set "c" (.pint 3) 10).cache =
        odAssign (odMoveToEnd lruWitnessCache.cache "c") "c"
          { value := .pint 3, timestamp := 10 }) ∧
    (∀ it, assocFind lruWitnessCache.cache "c" = some it →
      lruExpired lruWitnessCache.timeout (10 - it.timestamp) = false →
      lruWitnessCache.get "c" 10 =
        (it.value, { lruWitnessCache with
          cache := odErase lruWitnessCache.cache "c" ++ [("c", it)] })) :=
  ⟨⟨by decide, by decide⟩,
    lru_bounded_classic_lru lruWitnessCache "c" (.pint 3) 10 (by decide) (by decide)⟩

theorem memKey_time_indep (funcName : String) (args : List PyVal)
    (kwargs : List (String × PyVal)) (h : (dumps (allArgsVal args kwargs)).isSome = true)
    (n1 n2 : Nat) : memKey funcName n1 args kwargs = memKey funcName n2 args kwargs := by
  unfold memKey compute_hash
  cases hd : dumps (allArgsVal args kwargs) with
  | none => rw [hd] at h; simp at h
  | some s =>
    have hps : pyStr (allArgsVal args kwargs) = none := rfl
    simp only [hps, hd]

/-- C10: a wrapped function that returns None is never served from the
in-memory cache.  Starting from any state in which the lookup of the
derived key yields None (a miss or a stored None), the first wrapped
call invokes the function and stores None, and the second wrapped call
with the same arguments invokes the function again: the invocation
count rises by two, because the stored None reads back as None and the
decorator treats None as a miss. -/
theorem memory_cache_none_not_cached (funcName : String) (func : Nat → PyVal)
    (args : List PyVal) (kwargs : List (String × PyVal)) (st : MemState) (now1 now2 : Nat)
    (hfunc : ∀ k, func k = .pnone)
    (hser : (dumps (allArgsVal args kwargs)).isSome = true)
    (hmiss : (st.cache.get (memKey funcName now1 args kwargs) now1).1 = .pnone) :
    (memory_cache_wrapper true funcName func now1 args kwargs st).1 = .pnone ∧
    (memory_cache_wrapper true funcName func now1 args kwargs st).2.calls = st.calls + 1 ∧
    (memory_cache_wrapper true funcName func now2 args kwargs
      (memory_cache_wrapper true funcName func now1 args kwargs st).2).1 = .pnone ∧
    (memory_cache_wrapper true funcName func now2 args kwargs
      (memory_cache_wrapper true funcName func now1 args kwargs st).2).2.calls = st.calls + 2 := by
  have hkey : memKey funcName now2 args kwargs = memKey funcName now1 args kwargs :=
    memKey_time_indep funcName args kwargs hser now2 now1
  have hw1 : memory_cache_wrapper true funcName func now1 args kwargs st =
      (.pnone, { cache := (st.cache.get (memKey funcName now1 args kwargs) now1).2.set
                   (memKey funcName now1 args kwargs) .pnone now1,
                 calls := st.calls + 1 }) := by
    simp only [memory_cache_wrapper]
    rw [if_neg (by simp)]
    rw [if_neg (by simp [hmiss])]
    rw [hfunc]
  rw [hw1]
  refine ⟨rfl, rfl, ?_, ?_⟩ <;>
  · simp only [memory_cache_wrapper]
    rw [if_neg (by simp)]
    rw [hkey]
    rw [if_neg (by simp [set_get_pnone])]
    try simp [hfunc]

/-- Witness for the C10 theorem: a constant-None stub, empty cache. -/
theorem memory_cache_none_not_cached_witness :
    ((∀ k, (fun _ : Nat => PyVal.pnone) k = PyVal.pnone) ∧
      (dumps (allArgsVal [.pstr "t"] [])).isSome = true ∧
      ((({ cache := { maxsize := 4, timeout := some 3600, cache := [] }, calls := 0 }
          : MemState).cache.get (memKey "m.f" 11 [.pstr "t"] []) 11).1 = .pnone)) ∧
    ((memory_cache_wrapper true "m.f" (fun _ : Nat => PyVal.pnone) 11 [.pstr "t"] []
        { cache := { maxsize := 4, timeout := some 3600, cache := [] }, calls := 0 }).1
        = .pnone ∧
      (memory_cache_wrapper true "m.f" (fun _ : Nat => PyVal.pnone) 11 [.pstr "t"] []
        { cache := { maxsize := 4, timeout := some 3600, cache := [] }, calls := 0 }).2.calls
        = 0 + 1 ∧
      (memory_cache_wrapper true "m.f" (fun _ : Nat => PyVal.pnone) 12 [.pstr "t"] []
        (memory_cache_wrapper true "m.f" (fun _ : Nat => PyVal.pnone) 11 [.pstr "t"] []
          { cache := { maxsize := 4, timeout := some 3600, cache := [] }, calls := 0 }).2).1
        = .pnone ∧
      (memory_cache_wrapper true "m.f" (fun _ : Nat => PyVal.pnone) 12 [.pstr "t"] []
        (memory_cache_wrapper true "m.f" (fun _ : Nat => PyVal.pnone) 11 [.pstr "t"] []
          { cache := { maxsize := 4, timeout := some 3600, cache := [] }, calls := 0 }).2).2.calls
        = 0 + 2) :=
  ⟨⟨fun _ => rfl, by decide, by decide⟩,
    memory_cache_none_not_cached "m.f" (fun _ : Nat => PyVal.pnone) [.pstr "t"] []
      { cache := { maxsize := 4, timeout := some 3600, cache := [] }, calls := 0 } 11 12
      (fun _ => rfl) (by decide) (by decide)⟩

/-! ### disk_cache (src/utils/cache.py lines 187-245)

The wrapper reads and writes pickle files named by the qualified
function name and the derived key inside a per-decorator directory.
The directory content and the invocation count of the wrapped operation
are threaded as explicit state; wall-clock readings within one call are
taken at one time now.  The wrapped operation maps its prior invocation
count to a result or a raised exception. -/

inductive PyExc where
  | unpicklingError
  | eofError
  | attributeError
  | opError (msg : String)
  deriving DecidableEq

/-- The except clause around pickle.load (line 227) catches exactly
pickle.PickleError (unpicklingError models its subclasses) and
EOFError; every other exception class escapes it. -/
def loadHandlerCatches : PyExc → Bool
  | .unpicklingError => true
  | .eofError => true
  | _ => false

/-- Byte content of a cache file, abstracted by how pickle.load
responds to it: the well-formed dump of a value; corrupted bytes whose
load raises a pickle format error (UnpicklingError or EOFError); or
bytes whose load raises an exception outside those classes, as CPython
pickle does for content such as the opcodes of a global lookup of a
missing attribute, which raises AttributeError. -/
inductive Blob where
  | pickled (v : PyVal)
  | garbageCaught
  | garbageUncaught
  deriving DecidableEq

def pickleLoad : Blob → Except PyExc PyVal
  | .pickled v => .ok v
  | .garbageCaught => .error .unpicklingError
  | .garbageUncaught => .error .attributeError

deriving instance DecidableEq for Except

structure DiskCfg where
  enableCache : Bool
  cacheTimeout : Option Nat
  writeOk : Bool
  funcName : String

structure DiskState where
  files : List (String × Blob × Nat)
  calls : Nat
  deriving DecidableEq

def getFile : List (String × Blob × Nat) → String → Option (Blob × Nat)
  | [], _ => none
  | (k, e) :: rest, key => if k = key then some e else getFile rest key

def setFile : List (String × Blob × Nat) → String → Blob × Nat →
    List (String × Blob × Nat)
  | [], key, e => [(key, e)]
  | (k, e0) :: rest, key, e =>
    if k = key then (k, e) :: rest else (k, e0) :: setFile rest key e

/-- Validity test of line 223: CACHE_TIMEOUT is None, or the file age
is strictly below CACHE_TIMEOUT. -/
def ttlValid : Option Nat → Nat → Bool
  | none, _ => true
  | some t, age => age < t

/-- The cache file name of line 218: funcName dot key dot pickle. -/
def diskCacheFile (cfg : DiskCfg) (now : Nat) (args : List PyVal)
    (kwargs : List (String × PyVal)) : String :=
  cfg.funcName ++ "." ++ compute_hash now (allArgsVal args kwargs) ++ ".pickle"

/-- The cached-read phase (lines 221-229): some r when that branch
returns the deserialized value or lets an uncaught load exception
escape, none when control falls through to invoking the operation
(missing file, expired file, or corrupt file whose load failure is
caught). -/
def diskLookup (cacheTimeout : Option Nat) (files : List (String × Blob × Nat))
    (key : String) (now : Nat) : Option (Except PyExc PyVal) :=
  match getFile files key with
  | none => none
  | some (blob, mtime) =>
    if ttlValid cacheTimeout (now - mtime) then
      match pickleLoad blob with
      | .ok v => some (.ok v)
      | .error e => if loadHandlerCatches e then none else some (.error e)
    else none

def disk_cache_wrapper (cfg : DiskCfg) (op : Nat → Except PyExc PyVal) (now : Nat)
    (args : List PyVal) (kwargs : List (String × PyVal)) (st : DiskState) :
    Except PyExc PyVal × DiskState :=
  if cfg.enableCache = false then
    (op st.calls, { st with calls := st.calls + 1 })
  else
    let key := diskCacheFile cfg now args kwargs
    match diskLookup cfg.cacheTimeout st.files key now with
    | some r => (r, st)
    | none =>
      match op st.calls with
      | .error e => (.error e, { st with calls := st.calls + 1 })
      | .ok v =>
        if cfg.writeOk then
          (.ok v, { files := setFile st.files key (.pickled v, now), calls := st.calls + 1 })
        else
          (.ok v, { st with calls := st.calls + 1 })

theorem getFile_setFile_self : ∀ (l : List (String × Blob × Nat)) (key : String)
    (e : Blob × Nat), getFile (setFile l key e) key = some e := by
  intro l
  induction l with
  | nil => intro key e; simp [setFile, getFile]
  | cons p rest ih =>
    intro key e
    obtain ⟨k, e0⟩ := p
    by_cases hk : k = key
    · simp [setFile, getFile, hk]
    · simp only [setFile, if_neg hk, getFile]
      exact ih key e

theorem diskCacheFile_time_indep (cfg : DiskCfg) (args : List PyVal)
    (kwargs : List (String × PyVal)) (h : (dumps (allArgsVal args kwargs)).isSome = true)
    (n1 n2 : Nat) : diskCacheFile cfg n1 args kwargs = diskCacheFile cfg n2 args kwargs := by
  unfold diskCacheFile compute_hash
  cases hd : dumps (allArgsVal args kwargs) with
  | none => rw [hd] at h; simp at h
  | some s =>
    have hps : pyStr (allArgsVal args kwargs) = none := rfl
    simp only [hps, hd]

/-- C1: a call that succeeds and stores its result makes every later
call with identical (serializable) arguments within the TTL a cache
hit: the stored value is returned, the state is unchanged, and the
wrapped operation is not invoked again, so a counting stub called twice
with identical arguments within TTL runs exactly once. -/
theorem disk_cache_call_avoidance (cfg : DiskCfg) (op : Nat → Except PyExc PyVal)
    (st0 : DiskState) (args : List PyVal) (kwargs : List (String × PyVal))
    (now1 now2 : Nat) (v : PyVal)
    (hen : cfg.enableCache = true) (hw : cfg.writeOk = true)
    (hser : (dumps (allArgsVal args kwargs)).isSome = true)
    (hmiss : getFile st0.files (diskCacheFile cfg now1 args kwargs) = none)
    (hop : op st0.calls = .ok v)
    (httl : ttlValid cfg.cacheTimeout (now2 - now1) = true) :
    (disk_cache_wrapper cfg op now1 args kwargs st0).1 = .ok v ∧
    (disk_cache_wrapper cfg op now1 args kwargs st0).2.calls = st0.calls + 1 ∧
    disk_cache_wrapper cfg op now2 args kwargs
        (disk_cache_wrapper cfg op now1 args kwargs st0).2
      = (.ok v, (disk_cache_wrapper cfg op now1 args kwargs st0).2) := by
  have hkey : diskCacheFile cfg now2 args kwargs = diskCacheFile cfg now1 args kwargs :=
    diskCacheFile_time_indep cfg args kwargs hser now2 now1
  have hlook1 : diskLookup cfg.cacheTimeout st0.files
      (diskCacheFile cfg now1 args kwargs) now1 = none := by
    simp [diskLookup, hmiss]
  have hw1 : disk_cache_wrapper cfg op now1 args kwargs st0 =
      (.ok v, { files := setFile st0.files (diskCacheFile cfg now1 args kwargs)
                  (.pickled v, now1),
                calls := st0.calls + 1 }) := by
    simp only [disk_cache_wrapper]
    rw [if_neg (by simp [hen])]
    simp only [hlook1, hop, hw, if_true]
  rw [hw1]
  refine ⟨rfl, rfl, ?_⟩
  simp only [disk_cache_wrapper]
  rw [if_neg (by simp [hen])]
  have hfind : getFile (setFile st0.files (diskCacheFile cfg now1 args kwargs)
      (.pickled v, now1)) (diskCacheFile cfg now2 args kwargs) = some (.pickled v, now1) := by
    rw [hkey]
    exact getFile_setFile_self st0.files (diskCacheFile cfg now1 args kwargs) (.pickled v, now1)
  have hlook2 : diskLookup cfg.cacheTimeout
      (setFile st0.files (diskCacheFile cfg now1 args kwargs) (.pickled v, now1))
      (diskCacheFile cfg now2 args kwargs) now2 = some (.ok v) := by
    simp [diskLookup, hfind, httl, pickleLoad]
  simp only [hlook2]

/-- A concrete configuration for exercising the disk wrapper. -/
def dcCfg : DiskCfg :=
  { enableCache := true, cacheTimeout := some 3600, writeOk := true, funcName := "m.f" }

/-- A counting stub: its result records how often it has run. -/
def dcStub : Nat → Except PyExc PyVal := fun k => .ok (.pint (Int.ofNat k + 7))

def dcEmpty : DiskState := { files := [], calls := 0 }

/-- Witness for the C1 theorem: a counting stub memoized on disk, one
store at time 100, one hit at time 200 within a 3600 second TTL. -/
theorem disk_cache_call_avoidance_witness :
    (dcCfg.enableCache = true ∧ dcCfg.writeOk = true ∧
      (dumps (allArgsVal [.pstr "t"] [])).isSome = true ∧
      getFile dcEmpty.files (diskCacheFile dcCfg 100 [.pstr "t"] []) = none ∧
      dcStub dcEmpty.calls = .ok (.pint 7) ∧
      ttlValid dcCfg.cacheTimeout (200 - 100) = true) ∧
    ((disk_cache_wrapper dcCfg dcStub 100 [.pstr "t"] [] dcEmpty).1 = .ok (.pint 7) ∧
      (disk_cache_wrapper dcCfg dcStub 100 [.pstr "t"] [] dcEmpty).2.calls
        = dcEmpty.calls + 1 ∧
      disk_cache_wrapper dcCfg dcStub 200 [.pstr "t"] []
          (disk_cache_wrapper dcCfg dcStub 100 [.pstr "t"] [] dcEmpty).2
        = (.ok (.pint 7), (disk_cache_wrapper dcCfg dcStub 100 [.pstr "t"] [] dcEmpty).2)) :=
  ⟨⟨rfl, rfl, by decide, by decide, rfl, rfl⟩,
    disk_cache_call_avoidance dcCfg dcStub dcEmpty [.pstr "t"] [] 100 200 (.pint 7)
      rfl rfl (by decide) (by decide) rfl rfl⟩

/-- C4: with a configured TTL d, a stored entry read at age strictly
below d is returned as the cached value with no state change, and a
read at age at least d treats the entry as absent: the wrapped
operation runs again and its outcome is what the call returns. -/
theorem disk_cache_ttl_expiry (cfg : DiskCfg) (op : Nat → Except PyExc PyVal)
    (st : DiskState) (args : List PyVal) (kwargs : List (String × PyVal))
    (now mtime d : Nat) (v : PyVal)
    (hen : cfg.enableCache = true)
    (htimeout : cfg.cacheTimeout = some d)
    (hfile : getFile st.files (diskCacheFile cfg now args kwargs) = some (.pickled v, mtime)) :
    (now - mtime < d → disk_cache_wrapper cfg op now args kwargs st = (.ok v, st)) ∧
    (d ≤ now - mtime →
      (disk_cache_wrapper cfg op now args kwargs st).2.calls = st.calls + 1 ∧
      (disk_cache_wrapper cfg op now args kwargs st).1 = op st.calls) := by
  constructor
  · intro hlt
    have hlook : diskLookup cfg.cacheTimeout st.files
        (diskCacheFile cfg now args kwargs) now = some (.ok v) := by
      simp [diskLookup, hfile, htimeout, ttlValid, hlt, pickleLoad]
    simp only [disk_cache_wrapper]
    rw [if_neg (by simp [hen])]
    simp only [hlook]
  · intro hge
    have hlook : diskLookup cfg.cacheTimeout st.files
        (diskCacheFile cfg now args kwargs) now = none := by
      simp [diskLookup, hfile, htimeout, ttlValid]
      omega
    simp only [disk_cache_wrapper]
    rw [if_neg (by simp [hen])]
    simp only [hlook]
    cases hop : op st.calls with
    | error e => simp
    | ok w =>
      cases hcw : cfg.writeOk with
      | true => simp
      | false => simp

/-- Witness for the C4 theorem at a concrete entry of age 100 against a
TTL of 3600 at read time 200 (valid) and read time 4000 (expired). -/
theorem disk_cache_ttl_expiry_witness :
    (dcCfg.enableCache = true ∧ dcCfg.cacheTimeout = some 3600 ∧
      getFile [(diskCacheFile dcCfg 200 [.pstr "t"] [], ((Blob.pickled (.pint 9)), 100))]
        (diskCacheFile dcCfg 200 [.pstr "t"] []) = some (.pickled (.pint 9), 100) ∧
      200 - 100 < 3600) ∧
    disk_cache_wrapper dcCfg dcStub 200 [.pstr "t"] []
        { files := [(diskCacheFile dcCfg 200 [.pstr "t"] [], ((Blob.pickled (.pint 9)), 100))],
          calls := 0 }
      = (.ok (.pint 9),
         { files := [(diskCacheFile dcCfg 200 [.pstr "t"] [], ((Blob.pickled (.pint 9)), 100))],
           calls := 0 }) :=
  ⟨⟨rfl, rfl, by decide, by decide⟩,
    (disk_cache_ttl_expiry dcCfg dcStub
      { files := [(diskCacheFile dcCfg 200 [.pstr "t"] [], ((Blob.pickled (.pint 9)), 100))],
        calls := 0 }
      [.pstr "t"] [] 200 100 3600 (.pint 9) rfl rfl (by decide)).1 (by decide)⟩

/-- C3 at the failing input: a cache file whose bytes make pickle.load
raise AttributeError (for example the opcodes of a global lookup of a
missing name).  The except clause catches only PickleError and
EOFError, so the exception propagates to the caller instead of the
lookup degrading to a miss: the wrapped operation is not invoked and no
value is returned.  This contradicts the specification sentence that
deserialization failure must never raise to the caller. -/
theorem disk_cache_corrupt_uncaught_raises :
    loadHandlerCatches .attributeError = false ∧
    disk_cache_wrapper dcCfg dcStub 100 [.pstr "t"] []
        { files := [(diskCacheFile dcCfg 100 [.pstr "t"] [], (Blob.garbageUncaught, 100))],
          calls := 0 }
      = (.error .attributeError,
         { files := [(diskCacheFile dcCfg 100 [.pstr "t"] [], (Blob.garbageUncaught, 100))],
           calls := 0 }) := by
  constructor
  · rfl
  · decide

/-- The companion fact for C3: corrupted content whose load failure is
among the caught classes does degrade to a miss, invoking the operation
and overwriting the entry, which shows the intended corruption
tolerance works only for the caught exception classes. -/
theorem disk_cache_corrupt_caught_is_miss :
    disk_cache_wrapper dcCfg dcStub 100 [.pstr "t"] []
        { files := [(diskCacheFile dcCfg 100 [.pstr "t"] [], (Blob.garbageCaught, 100))],
          calls := 0 }
      = (.ok (.pint 7),
         { files := [(diskCacheFile dcCfg 100 [.pstr "t"] [], (Blob.pickled (.pint 7), 100))],
           calls := 1 }) := by decide

/-- C6: when the lookup falls through and the wrapped operation raises,
the wrapper returns exactly that failure and the file store is
unchanged: no cache entry is created for the failed call. -/
theorem disk_cache_failure_passthrough (cfg : DiskCfg) (op : Nat → Except PyExc PyVal)
    (st : DiskState) (args : List PyVal) (kwargs : List (String × PyVal)) (now : Nat)
    (e : PyExc)
    (hen : cfg.enableCache = true)
    (hmiss : diskLookup cfg.cacheTimeout st.files (diskCacheFile cfg now args kwargs) now
      = none)
    (hop : op st.calls = .error e) :
    disk_cache_wrapper cfg op now args kwargs st
      = (.error e, { files := st.files, calls := st.calls + 1 }) := by
  simp only [disk_cache_wrapper]
  rw [if_neg (by simp [hen])]
  simp only [hmiss, hop]

/-- Witness for the C6 theorem: an always-raising stub on an empty
store propagates its error and writes nothing. -/
theorem disk_cache_failure_passthrough_witness :
    (dcCfg.enableCache = true ∧
      diskLookup dcCfg.cacheTimeout dcEmpty.files (diskCacheFile dcCfg 100 [.pstr "t"] []) 100
        = none ∧
      (fun _ : Nat => (Except.error (PyExc.opError "boom") : Except PyExc PyVal)) dcEmpty.calls
        = .error (.opError "boom")) ∧
    disk_cache_wrapper dcCfg (fun _ : Nat => .error (.opError "boom")) 100 [.pstr "t"] [] dcEmpty
      = (.error (.opError "boom"), { files := dcEmpty.files, calls := dcEmpty.calls + 1 }) :=
  ⟨⟨rfl, by decide, rfl⟩,
    disk_cache_failure_passthrough dcCfg (fun _ : Nat => .error (.opError "boom")) dcEmpty
      [.pstr "t"] [] 100 (.opError "boom") rfl (by decide) rfl⟩

/-- C7: when the operation succeeds but persisting the result fails
(any storage exception), the freshly computed result is still returned,
nothing is raised, and the store is unchanged: the write failure is
swallowed. -/
theorem disk_cache_write_failure_swallowed (cfg : DiskCfg) (op : Nat → Except PyExc PyVal)
    (st : DiskState) (args : List PyVal) (kwargs : List (String × PyVal)) (now : Nat)
    (v : PyVal)
    (hen : cfg.enableCache = true) (hw : cfg.writeOk = false)
    (hmiss : diskLookup cfg.cacheTimeout st.files (diskCacheFile cfg now args kwargs) now
      = none)
    (hop : op st.calls = .ok v) :
    disk_cache_wrapper cfg op now args kwargs st
      = (.ok v, { files := st.files, calls := st.calls + 1 }) := by
  simp only [disk_cache_wrapper]
  rw [if_neg (by simp [hen])]
  simp only [hmiss, hop, hw, Bool.false_eq_true, if_false]

/-- The concrete configuration whose persistence layer fails. -/
def dcCfgNoWrite : DiskCfg :=
  { enableCache := true, cacheTimeout := some 3600, writeOk := false, funcName := "m.f" }

/-- Witness for the C7 theorem: a failing write leaves the store
unchanged while the computed value is returned. -/
theorem disk_cache_write_failure_swallowed_witness :
    (dcCfgNoWrite.enableCache = true ∧ dcCfgNoWrite.writeOk = false ∧
      diskLookup dcCfgNoWrite.cacheTimeout dcEmpty.files
        (diskCacheFile dcCfgNoWrite 100 [.pstr "t"] []) 100 = none ∧
      dcStub dcEmpty.calls = .ok (.pint 7)) ∧
    disk_cache_wrapper dcCfgNoWrite dcStub 100 [.pstr "t"] [] dcEmpty
      = (.ok (.pint 7), { files := dcEmpty.files, calls := dcEmpty.calls + 1 }) :=
  ⟨⟨rfl, rfl, by decide, rfl⟩,
    disk_cache_write_failure_swallowed dcCfgNoWrite dcStub dcEmpty [.pstr "t"] [] 100
      (.pint 7) rfl rfl (by decide) rfl⟩

/-- Arguments that canonical serialization rejects: a dict with a tuple
key, which json.dumps refuses with TypeError. -/
def dcBadArgs : List PyVal := [.pdict [(.plist [.pint 1, .pint 2], .pstr "a")]]

/-- C5 counterexample: a degraded-key call is not an unconditional
cache miss.  Two calls with the same unserializable arguments in the
same one-second time bucket share the fallback key nohash_500; the
first stores its result and the second returns that stored value with
the counting stub still at one invocation (had the stub run again it
would have returned 8, not 7). -/
theorem disk_cache_degraded_key_counterexample :
    dumps (allArgsVal dcBadArgs []) = none ∧
    (disk_cache_wrapper dcCfg dcStub 500 dcBadArgs []
      (disk_cache_wrapper dcCfg dcStub 500 dcBadArgs [] dcEmpty).2).1 = .ok (.pint 7) ∧
    (disk_cache_wrapper dcCfg dcStub 500 dcBadArgs []
      (disk_cache_wrapper dcCfg dcStub 500 dcBadArgs [] dcEmpty).2).2.calls = 1 := by
  refine ⟨rfl, ?_, ?_⟩ <;> decide

/-- C5 (amended): when canonical serialization of the arguments fails,
key derivation does not raise but produces the degraded time-bucketed
key nohash_ followed by the current epoch second, and the call
proceeds: whenever no entry is stored under that degraded key, the
wrapped operation is invoked and its outcome (value or failure) is
exactly what the call returns.  A second degraded-key call inside the
same one-second bucket can, however, be served from the entry the first
one stored, so the miss is not unconditional. -/
theorem disk_cache_degraded_key (cfg : DiskCfg) (op : Nat → Except PyExc PyVal)
    (st : DiskState) (args : List PyVal) (kwargs : List (String × PyVal)) (now : Nat)
    (hen : cfg.enableCache = true)
    (hser : dumps (allArgsVal args kwargs) = none) :
    diskCacheFile cfg now args kwargs
      = cfg.funcName ++ ".nohash_" ++ toString now ++ ".pickle" ∧
    (getFile st.files (cfg.funcName ++ ".nohash_" ++ toString now ++ ".pickle") = none →
      (disk_cache_wrapper cfg op now args kwargs st).1 = op st.calls ∧
      (disk_cache_wrapper cfg op now args kwargs st).2.calls = st.calls + 1) := by
  have hkey : diskCacheFile cfg now args kwargs
      = cfg.funcName ++ ".nohash_" ++ toString now ++ ".pickle" := by
    unfold diskCacheFile compute_hash
    have hps : pyStr (allArgsVal args kwargs) = none := rfl
    simp only [hps, hser]
    rw [← String.append_assoc (cfg.funcName ++ ".") "nohash_" (toString now),
        String.append_assoc cfg.funcName "." "nohash_"]
    have hlit : ("." ++ "nohash_" : String) = ".nohash_" := rfl
    rw [hlit]
  refine ⟨hkey, fun hmiss => ?_⟩
  have hlook : diskLookup cfg.cacheTimeout st.files
      (diskCacheFile cfg now args kwargs) now = none := by
    rw [hkey]
    simp [diskLookup, hmiss]
  simp only [disk_cache_wrapper]
  rw [if_neg (by simp [hen])]
  simp only [hlook]
  cases hop : op st.calls with
  | error e => simp
  | ok w => cases hcw : cfg.writeOk <;> simp [hcw]

/-- Witness for the amended C5 theorem: a first degraded-key call on an
empty store invokes the stub and returns its result. -/
theorem disk_cache_degraded_key_witness :
    (dcCfg.enableCache = true ∧ dumps (allArgsVal dcBadArgs []) = none ∧
      getFile dcEmpty.files (dcCfg.funcName ++ ".nohash_" ++ toString 321 ++ ".pickle")
        = none) ∧
    (diskCacheFile dcCfg 321 dcBadArgs []
        = dcCfg.funcName ++ ".nohash_" ++ toString 321 ++ ".pickle" ∧
      (disk_cache_wrapper dcCfg dcStub 321 dcBadArgs [] dcEmpty).1 = dcStub dcEmpty.calls ∧
      (disk_cache_wrapper dcCfg dcStub 321 dcBadArgs [] dcEmpty).2.calls
        = dcEmpty.calls + 1) :=
  ⟨⟨rfl, rfl, rfl⟩,
    ⟨(disk_cache_degraded_key dcCfg dcStub dcEmpty dcBadArgs [] 321 rfl rfl).1,
     (disk_cache_degraded_key dcCfg dcStub dcEmpty dcBadArgs [] 321 rfl rfl).2 rfl⟩⟩

/-! ### clear_cache (src/utils/cache.py lines 248-273)

The data cache directory holds files directly (entries of decorators
without a subdir argument) and one subdirectory per partition.  The
glob pattern matches exactly the file names ending in .pickle of the
target directory itself; deletion failures (OSError) skip the file
without counting it. -/

structure DiskStore where
  rootExists : Bool
  rootFiles : List String
  parts : List (String × List String)
  deriving DecidableEq

def isPickleFile (f : String) : Bool := f.endsWith ".pickle"

def findPart : List (String × List String) → String → Option (List String)
  | [], _ => none
  | (k, fs) :: rest, name => if k = name then some fs else findPart rest name

def setPart : List (String × List String) → String → List String →
    List (String × List String)
  | [], name, fs => [(name, fs)]
  | (k, fs0) :: rest, name, fs =>
    if k = name then (k, fs) :: rest else (k, fs0) :: setPart rest name fs

def clear_cache (unlinkOk : String → Bool) (store : DiskStore) (subdir : Option String) :
    Nat × DiskStore :=
  match subdir with
  | some p =>
    match findPart store.parts p with
    | none => (0, store)
    | some fs =>
      let removed := fs.filter (fun f => isPickleFile f && unlinkOk f)
      let kept := fs.filter (fun f => !(isPickleFile f && unlinkOk f))
      (removed.length, { store with parts := setPart store.parts p kept })
  | none =>
    if store.rootExists = false then (0, store)
    else
      let removed := store.rootFiles.filter (fun f => isPickleFile f && unlinkOk f)
      let kept := store.rootFiles.filter (fun f => !(isPickleFile f && unlinkOk f))
      (removed.length, { store with rootFiles := kept })

/-- C9 counterexample: clearing with no partition does not delete the
entries inside partition subdirectories.  A store whose wikipedia
partition holds one entry is returned unchanged with count 0, because
the non-recursive glob of the root directory sees no .pickle file
there. -/
theorem clear_cache_misses_partition_entries :
    clear_cache (fun _ => true)
        { rootExists := true, rootFiles := [],
          parts := [("wikipedia", ["m.f.aa.pickle"])] } none
      = (0, { rootExists := true, rootFiles := [],
              parts := [("wikipedia", ["m.f.aa.pickle"])] }) := by decide

/-- C9 (amended): given an existing partition, clear_cache deletes all
its .pickle entries and returns their count; given no partition it
deletes only the .pickle files directly in the store root and returns
their count, leaving every partition subdirectory untouched; a missing
target directory yields 0 without raising. -/
theorem clear_cache_behavior (store : DiskStore) (p : String) (fs : List String) :
    (findPart store.parts p = none → clear_cache (fun _ => true) store (some p) = (0, store)) ∧
    (findPart store.parts p = some fs →
      (clear_cache (fun _ => true) store (some p)).1 = (fs.filter isPickleFile).length ∧
      findPart (clear_cache (fun _ => true) store (some p)).2.parts p
        = some (fs.filter (fun f => !isPickleFile f)) ∧
      (clear_cache (fun _ => true) store (some p)).2.rootFiles = store.rootFiles ∧
      (clear_cache (fun _ => true) store (some p)).2.rootExists = store.rootExists) ∧
    (store.rootExists = false → clear_cache (fun _ => true) store none = (0, store)) ∧
    (store.rootExists = true →
      (clear_cache (fun _ => true) store none).1
        = (store.rootFiles.filter isPickleFile).length ∧
      (clear_cache (fun _ => true) store none).2.rootFiles
        = store.rootFiles.filter (fun f => !isPickleFile f) ∧
      (clear_cache (fun _ => true) store none).2.parts = store.parts) := by
  refine ⟨?_, ?_, ?_, ?_⟩
  · intro h
    simp [clear_cache, h]
  · intro h
    have hfind : ∀ gs, findPart (setPart store.parts p gs) p = some gs := by
      intro gs
      induction store.parts with
      | nil => simp [setPart, findPart]
      | cons q rest ih =>
        obtain ⟨k, fs0⟩ := q
        by_cases hk : k = p
        · simp [setPart, findPart, hk]
        · simp only [setPart, if_neg hk, findPart]
          exact ih
    simp [clear_cache, h, hfind]
  · intro h
    simp [clear_cache, h]
  · intro h
    simp [clear_cache, h]

/-- A concrete store for the C9 witness: one root entry, one partition
with a pickle entry and a stray text file. -/
def c9Store : DiskStore :=
  { rootExists := true, rootFiles := ["m.g.bb.pickle", "notes.txt"],
    parts := [("wikipedia", ["m.f.aa.pickle", "readme.txt"])] }

/-- Witness for the amended C9 theorem at the concrete store: the
partition clear removes its one pickle entry, the root clear removes
the root pickle entry and leaves the partition alone, and a missing
partition yields 0. -/
theorem clear_cache_behavior_witness :
    ((findPart c9Store.parts "news" = none →
        clear_cache (fun _ => true) c9Store (some "news") = (0, c9Store)) ∧
      (findPart c9Store.parts "wikipedia" = some ["m.f.aa.pickle", "readme.txt"] →
        (clear_cache (fun _ => true) c9Store (some "wikipedia")).1
          = (["m.f.aa.pickle", "readme.txt"].filter isPickleFile).length ∧
        findPart (clear_cache (fun _ => true) c9Store (some "wikipedia")).2.parts "wikipedia"
          = some (["m.f.aa.pickle", "readme.txt"].filter (fun f => !isPickleFile f)) ∧
        (clear_cache (fun _ => true) c9Store (some "wikipedia")).2.rootFiles
          = c9Store.rootFiles ∧
        (clear_cache (fun _ => true) c9Store (some "wikipedia")).2.rootExists
          = c9Store.rootExists) ∧
      (c9Store.rootExists = false → clear_cache (fun _ => true) c9Store none = (0, c9Store)) ∧
      (c9Store.rootExists = true →
        (clear_cache (fun _ => true) c9Store none).1
          = (c9Store.rootFiles.filter isPickleFile).length ∧
        (clear_cache (fun _ => true) c9Store none).2.rootFiles
          = c9Store.rootFiles.filter (fun f => !isPickleFile f) ∧
        (clear_cache (fun _ => true) c9Store none).2.parts = c9Store.parts)) ∧
    (findPart c9Store.parts "wikipedia" = some ["m.f.aa.pickle", "readme.txt"] ∧
      c9Store.rootExists = true) :=
  ⟨clear_cache_behavior c9Store "news" [] |>.1 |> fun h1 =>
    ⟨fun _ => h1 (by decide),
     (clear_cache_behavior c9Store "wikipedia" ["m.f.aa.pickle", "readme.txt"]).2.1,
     (clear_cache_behavior c9Store "wikipedia" ["m.f.aa.pickle", "readme.txt"]).2.2.1,
     (clear_cache_behavior c9Store "wikipedia" ["m.f.aa.pickle", "readme.txt"]).2.2.2⟩,
   by decide, by decide⟩
